import Mathlib

/-!
# A verification development for the `endpoint_challenge` in-memory filesystem

This file shallowly embeds the Rust sources of the repository:

* `src/path.rs` / `src/error.rs` — the Path component: the segment-list
  path representation, its parser (`TryFrom<&str> for Path`) and its
  renderer (`From<Path> for String`), together with the error enum the
  parser uses (`FileSystemError` of `error.rs`, whose `BadPath` carries the
  offending text).
* `src/fs.rs` — the tree engine: the `Dir` node (a stored canonical path
  plus a `HashMap<String, Dir>` of children), `FileSystem`, and
  `FileSystem::exec_cmd` for the commands `List`, `Create`, `Delete`,
  `Move`, together with `fs.rs`'s own error enum (whose `BadPath` and
  `FileAlreadyExists` constructors carry no payload).

Modelling conventions:

* Rust strings are Lean `String`s; `str::split('/')` is embedded as the
  recursive splitter `splitSlash` over the character list.
* The `HashMap<String, Dir>` of children is embedded as an association
  list `List (String × Dir)`.  The `get`/`insert`/`remove` operations used
  by the source are embedded faithfully (`insert` appends a fresh key at
  the end).  Rust's `std::collections::HashMap` guarantees no iteration
  order; the model fixes insertion order as one admissible order, and any
  claim that needs a *particular* order must hold for every admissible
  order.
* In-place mutation through `&mut` chains is embedded as explicit
  rebuilding of the ancestors of the mutated node (`accessDir` below).
* The `pop().unwrap()` calls in `exec_cmd` panic when the path has no
  segments; `exec_cmd` therefore returns an `Option`, with `none` for the
  panic.
-/

set_option autoImplicit false

namespace EndpointFs

/-- The path representation, defined identically in `src/path.rs` and
`src/fs.rs`: an ordered list of file-name segments. -/
structure Path where
  file_names : List String
deriving DecidableEq, Repr

/-- Embeds `Path::new` (`src/path.rs`). -/
def Path.new : Path := ⟨[]⟩

/-- Embeds `Path::push_file` (`src/path.rs`): appends one segment. -/
def Path.push_file (p : Path) (file : String) : Path :=
  ⟨p.file_names ++ [file]⟩

/-- The `FileSystemError` enum of `src/error.rs`, used by the Path
component's parser: `BadPath` carries the offending text,
`FileAlreadyExists` carries a `Path`. -/
inductive ErrorRs where
  | PathDoesNotExist (p : Path)
  | BadPath (s : String)
  | CmdNotFound (s : String)
  | InvalidCmdArgs (s : String)
  | FileAlreadyExists (p : Path)
deriving DecidableEq, Repr

/-- Embeds `str::split('/')` on the character list: Rust's `split` on a single
pattern character.  `splitSlash [] = [[]]`, a separator always opens a new
(possibly empty) segment. -/
def splitSlash : List Char → List (List Char)
  | [] => [[]]
  | c :: cs =>
    if c = '/' then [] :: splitSlash cs
    else
      match splitSlash cs with
      | [] => [[c]]
      | l :: ls => (c :: l) :: ls

/-- Embeds `value.split('/').map(|s| s.to_string()).collect()` (`src/path.rs`). -/
def rsplit (s : String) : List String :=
  (splitSlash s.data).map fun l => ⟨l⟩

/-- Embeds `TryFrom<&str> for Path` of `src/path.rs`: the literal `"/"` is the
root (empty) path; otherwise split on `'/'` and fail with `BadPath`
carrying the input if any segment is empty. -/
def Path.tryFrom (value : String) : Except ErrorRs Path :=
  if value = "/" then .ok ⟨[]⟩
  else
    let file_names := rsplit value
    if file_names.any (fun s => s.length = 0) then .error (.BadPath value)
    else .ok ⟨file_names⟩

/-- Embeds `From<Path> for String` of `src/path.rs` (identical code in
`src/fs.rs`): push every segment followed by `'/'`, then pop the final
character. -/
def Path.render (p : Path) : String :=
  ⟨((p.file_names.map fun s => s.data ++ ['/']).flatten).dropLast⟩

/-- Two consecutive separators occur somewhere in the character list. -/
def hasDoubleSlash : List Char → Bool
  | c1 :: c2 :: rest => (c1 = '/' && c2 = '/') || hasDoubleSlash (c2 :: rest)
  | _ => false

-- Sanity checks on the parser and renderer.
example : Path.tryFrom "/" = .ok ⟨[]⟩ := rfl
example : Path.tryFrom "a/b" = .ok ⟨["a", "b"]⟩ := rfl
example : Path.tryFrom "" = .error (.BadPath "") := rfl
example : Path.tryFrom "/a" = .error (.BadPath "/a") := rfl
example : Path.tryFrom "a//b" = .error (.BadPath "a//b") := rfl
example : Path.render ⟨["a", "b"]⟩ = "a/b" := rfl
example : Path.render ⟨[]⟩ = "" := rfl

/-- The `FileSystemError` enum of `src/fs.rs` (the engine's own copy):
only `PathDoesNotExist` carries a payload; in particular
`FileAlreadyExists` and `BadPath` carry nothing. -/
inductive FileSystemError where
  | PathDoesNotExist (p : Path)
  | BadPath
  | CmdDoesNotExist
  | InvalidCmdArgs
  | InvalidProgramArgs
  | InternalError
  | FileAlreadyExists
deriving DecidableEq, Repr

/-- The `Path` payload carried by a `FileSystemError` value of `src/fs.rs`,
if any: only the `PathDoesNotExist` constructor has one. -/
def FileSystemError.carriedPath : FileSystemError → Option Path
  | .PathDoesNotExist p => some p
  | _ => none

/-- The `Cmd` enum of `src/fs.rs`. -/
inductive Cmd where
  | Move (src : Path) (dest : Path)
  | Create (path : Path)
  | Delete (path : Path)
  | List
deriving DecidableEq, Repr

/-- The `Dir` node of `src/fs.rs`: its stored canonical path and its
children.  The children's `HashMap<String, Dir>` is embedded as an
association list (see the module docstring). -/
structure Dir where
  path : Path
  entries : List (String × Dir)

/-- Eta rule for `Dir` (it is a recursive structure, so this is not
definitional). -/
theorem Dir.eta (d : Dir) : Dir.mk d.path d.entries = d := by
  cases d
  rfl

/-- Embeds `HashMap::get` on the association-list embedding: the value of the
first entry with the given key. -/
def getEntry : List (String × Dir) → String → Option Dir
  | [], _ => none
  | (n, d) :: rest, k => if n = k then some d else getEntry rest k

/-- Replacing the value stored at an existing key (the effect of mutating
through `HashMap::get_mut`). -/
def setEntry : List (String × Dir) → String → Dir → List (String × Dir)
  | [], _, _ => []
  | (n, d) :: rest, k, v => if n = k then (n, v) :: rest else (n, d) :: setEntry rest k v

/-- Embeds `HashMap::remove` on the embedding: drops the (unique) entry with the
given key. -/
def removeEntry : List (String × Dir) → String → List (String × Dir)
  | [], _ => []
  | (n, d) :: rest, k => if n = k then rest else (n, d) :: removeEntry rest k

/-- Embeds `HashMap::insert` on the embedding: replaces the value if the key is
present, otherwise appends the new entry (the model's admissible iteration
order is insertion order). -/
def insertEntry (m : List (String × Dir)) (k : String) (v : Dir) : List (String × Dir) :=
  if (getEntry m k).isSome then setEntry m k v else m ++ [(k, v)]

/-- Embeds `Dir::new` (`src/fs.rs`). -/
def Dir.new (path : Path) : Dir :=
  ⟨path, []⟩

/-- Embeds `Dir::create_dir` (`src/fs.rs`): fail with the payload-less
`FileAlreadyExists` if the name is taken, else insert the child. -/
def Dir.create_dir (d : Dir) (name : String) (dir : Dir) : Except FileSystemError Dir :=
  if (getEntry d.entries name).isSome then .error .FileAlreadyExists
  else .ok { d with entries := insertEntry d.entries name dir }

/-- Embeds `Dir::delete` (`src/fs.rs`): fail with `PathDoesNotExist` carrying the
node's stored canonical path plus the name if the child is absent, else
remove it and return it.  Yields the removed child and the updated node. -/
def Dir.delete (d : Dir) (name : String) : Except FileSystemError (Dir × Dir) :=
  match getEntry d.entries name with
  | none => .error (.PathDoesNotExist (d.path.push_file name))
  | some dir => .ok (dir, { d with entries := removeEntry d.entries name })

/-- The `FileSystem` of `src/fs.rs`: the root `Dir`. -/
structure FileSystem where
  root : Dir

/-- Embeds `FileSystem::new` (`src/fs.rs`): an empty root with the empty stored
path. -/
def FileSystem.new : FileSystem :=
  ⟨Dir.new ⟨[]⟩⟩

/-- The descent loop of `FileSystem::access_dir` (`src/fs.rs`): walk the
remaining segments from `d`, keeping the original full path `orig` for the
`PathDoesNotExist` error; at the end run the callback on the reached node.
The `&mut` chain of the source is embedded by rebuilding each ancestor
with its updated child on the way back. -/
def accessAux {α : Type} (orig : Path) (d : Dir) :
    List String → (Dir → Except FileSystemError (α × Dir)) →
    Except FileSystemError (α × Dir)
  | [], cb => cb d
  | n :: rest, cb =>
    match getEntry d.entries n with
    | none => .error (.PathDoesNotExist orig)
    | some child =>
      match accessAux orig child rest cb with
      | .error e => .error e
      | .ok (a, child') => .ok (a, { d with entries := setEntry d.entries n child' })

/-- Embeds `FileSystem::access_dir` (`src/fs.rs`): follow `path` from `root`; on
a missing segment fail with `PathDoesNotExist` carrying the whole `path`;
otherwise run the callback on the final directory.  Returns the callback's
result together with the updated root. -/
def accessDir {α : Type} (root : Dir) (path : Path)
    (cb : Dir → Except FileSystemError (α × Dir)) :
    Except FileSystemError (α × Dir) :=
  accessAux path root path.file_names cb

/-- Resolution as a pure lookup: the node at the given segments, if every
segment exists (the specification's "Resolution" primitive, used to state
properties of `accessDir`). -/
def lookupPath (d : Dir) : List String → Option Dir
  | [] => some d
  | n :: rest =>
    match getEntry d.entries n with
    | none => none
    | some child => lookupPath child rest

/-- Replacing the node at the given segments (leaving the tree unchanged
when the segments do not resolve); the pure counterpart of the rebuilding
done by `accessAux`. -/
def updatePath (d : Dir) : List String → Dir → Dir
  | [], t => t
  | n :: rest, t =>
    match getEntry d.entries n with
    | none => d
    | some child => { d with entries := setEntry d.entries n (updatePath child rest t) }

/-- The indentation pushed by the `List` callback of
`FileSystem::exec_cmd` (`src/fs.rs`): the two-space string pushed `depth`
times. -/
def indentChars (depth : Nat) : List Char :=
  (List.replicate depth [' ', ' ']).flatten

/-- The children list of a node is smaller than the node (for the
termination of the traversal). -/
theorem Dir.sizeOf_entries_lt (d : Dir) : sizeOf d.entries < sizeOf d := by
  cases d
  simp

/-- The output characters accumulated by `FileSystem::traverse_dir`
(`src/fs.rs`) together with the `List` callback of `exec_cmd`: for each
entry, in the map's iteration order, the indentation, the entry's name and
a newline, then the entry's own subtree one level deeper, then the
remaining entries. -/
def traverseEntries : List (String × Dir) → Nat → List Char
  | [], _ => []
  | (name, child) :: rest, depth =>
    indentChars depth ++ name.data ++ ['\n'] ++
      traverseEntries child.entries (depth + 1) ++ traverseEntries rest depth
termination_by es _ => sizeOf es
decreasing_by
  all_goals simp_wf
  all_goals (first
    | omega
    | (have h := Dir.sizeOf_entries_lt child
       omega))

/-- The same visit, one line per visited entry (used to state properties
of the accumulated output). -/
def listLines : List (String × Dir) → Nat → List (List Char)
  | [], _ => []
  | (name, child) :: rest, depth =>
    (indentChars depth ++ name.data) ::
      (listLines child.entries (depth + 1) ++ listLines rest depth)
termination_by es _ => sizeOf es
decreasing_by
  all_goals simp_wf
  all_goals (first
    | omega
    | (have h := Dir.sizeOf_entries_lt child
       omega))

/-- Embeds `FileSystem::exec_cmd` (`src/fs.rs`).  `none` models the panic of the
`pop().unwrap()` calls on a path with no segments; otherwise the result is
the returned `Result<Option<String>>` paired with the filesystem after the
command (the source mutates `self` in place: on an error raised after the
source subtree of a `Move` was detached, the detachment persists). -/
def FileSystem.exec_cmd (fs : FileSystem) (cmd : Cmd) :
    Option (Except FileSystemError (Option String) × FileSystem) :=
  match cmd with
  | .List =>
    some (.ok (some ⟨(traverseEntries fs.root.entries 0).dropLast⟩), fs)
  | .Move src dest =>
    match src.file_names.getLast? with
    | none => none
    | some move_file_name =>
      match accessDir fs.root ⟨src.file_names.dropLast⟩
          (fun dir => dir.delete move_file_name) with
      | .error e => some (.error e, fs)
      | .ok (move_dir, root1) =>
        match accessDir root1 dest
            (fun dir =>
              match dir.create_dir move_file_name move_dir with
              | .error e => .error e
              | .ok dir' => .ok ((none : Option String), dir')) with
        | .error e => some (.error e, ⟨root1⟩)
        | .ok (a, root2) => some (.ok a, ⟨root2⟩)
  | .Create path =>
    match path.file_names.getLast? with
    | none => none
    | some new_file =>
      let new_dir := Dir.new path
      match accessDir fs.root ⟨path.file_names.dropLast⟩
          (fun dir =>
            match dir.create_dir new_file new_dir with
            | .error e => .error e
            | .ok dir' => .ok ((none : Option String), dir')) with
      | .error e => some (.error e, fs)
      | .ok (a, root1) => some (.ok a, ⟨root1⟩)
  | .Delete path =>
    match path.file_names.getLast? with
    | none => none
    | some file_name =>
      match accessDir fs.root ⟨path.file_names.dropLast⟩
          (fun dir =>
            match dir.delete file_name with
            | .error e => .error e
            | .ok (_, dir') => .ok ((none : Option String), dir')) with
      | .error e => some (.error e, fs)
      | .ok (a, root1) => some (.ok a, ⟨root1⟩)

/-! ## Lemmas about the association-list embedding of the child map -/

theorem getEntry_setEntry_self {m : List (String × Dir)} {k : String} {d : Dir} (v : Dir)
    (h : getEntry m k = some d) : getEntry (setEntry m k v) k = some v := by
  induction m with
  | nil => simp [getEntry] at h
  | cons e rest ih =>
    obtain ⟨n, d'⟩ := e
    by_cases hk : n = k
    · subst hk
      simp [getEntry, setEntry]
    · simp only [getEntry, setEntry, if_neg hk] at h ⊢
      exact ih h

theorem getEntry_setEntry_ne {m : List (String × Dir)} {k k' : String} (v : Dir)
    (h : k' ≠ k) : getEntry (setEntry m k v) k' = getEntry m k' := by
  induction m with
  | nil => simp [getEntry, setEntry]
  | cons e rest ih =>
    obtain ⟨n, d'⟩ := e
    by_cases hk : n = k
    · subst hk
      have hn : ¬ n = k' := fun hh => h hh.symm
      simp [getEntry, setEntry, hn]
    · simp only [setEntry, if_neg hk, getEntry]
      rw [ih]

theorem setEntry_getEntry_self {m : List (String × Dir)} {k : String} {v : Dir}
    (h : getEntry m k = some v) : setEntry m k v = m := by
  induction m with
  | nil => simp [getEntry] at h
  | cons e rest ih =>
    obtain ⟨n, d'⟩ := e
    by_cases hk : n = k
    · subst hk
      have hx : getEntry ((n, d') :: rest) n = some d' := by simp [getEntry]
      rw [hx] at h
      obtain rfl : d' = v := Option.some.inj h
      simp [setEntry]
    · simp only [getEntry, if_neg hk] at h
      simp [setEntry, if_neg hk, ih h]

theorem setEntry_setEntry (m : List (String × Dir)) (k : String) (a b : Dir) :
    setEntry (setEntry m k a) k b = setEntry m k b := by
  induction m with
  | nil => simp [setEntry]
  | cons e rest ih =>
    obtain ⟨n, d'⟩ := e
    by_cases hk : n = k
    · simp [setEntry, hk]
    · simp [setEntry, if_neg hk, ih]

theorem getEntry_append_right {m : List (String × Dir)} {k : String} (v : Dir)
    (h : getEntry m k = none) : getEntry (m ++ [(k, v)]) k = some v := by
  induction m with
  | nil => simp [getEntry]
  | cons e rest ih =>
    obtain ⟨n, d'⟩ := e
    by_cases hk : n = k
    · simp [getEntry, hk] at h
    · simp only [getEntry, if_neg hk] at h
      simp only [List.cons_append, getEntry, if_neg hk]
      exact ih h

theorem removeEntry_append_right {m : List (String × Dir)} {k : String} (v : Dir)
    (h : getEntry m k = none) : removeEntry (m ++ [(k, v)]) k = m := by
  induction m with
  | nil => simp [removeEntry]
  | cons e rest ih =>
    obtain ⟨n, d'⟩ := e
    by_cases hk : n = k
    · simp [getEntry, hk] at h
    · simp only [getEntry, if_neg hk] at h
      simp only [List.cons_append, removeEntry, if_neg hk]
      exact congrArg _ (ih h)

/-! ## The `access_dir` walk as pure lookup plus pure update -/

/-- Characterises `accessAux` through `lookupPath`/`updatePath`: a failed
resolution yields `PathDoesNotExist` with the original path and no tree
change; a successful one runs the callback on the resolved node and
replaces that node. -/
theorem accessAux_spec {α : Type} (orig : Path)
    (cb : Dir → Except FileSystemError (α × Dir)) (p : List String) (d : Dir) :
    accessAux orig d p cb =
      match lookupPath d p with
      | none => .error (.PathDoesNotExist orig)
      | some t =>
        match cb t with
        | .error e => .error e
        | .ok (a, t') => .ok (a, updatePath d p t') := by
  induction p generalizing d with
  | nil =>
    simp only [accessAux, lookupPath, updatePath]
    cases h : cb d with
    | error e => simp
    | ok v => obtain ⟨a, t'⟩ := v; simp [updatePath]
  | cons n rest ih =>
    cases hg : getEntry d.entries n with
    | none => simp [accessAux, lookupPath, hg]
    | some child =>
      simp only [accessAux, lookupPath, hg]
      rw [ih child]
      cases hl : lookupPath child rest with
      | none => simp
      | some t =>
        dsimp only
        cases hc : cb t with
        | error e => rfl
        | ok v =>
          obtain ⟨a, t'⟩ := v
          simp [updatePath, hg]

/-- Lemma: `lookupPath` distributes over path concatenation. -/
theorem lookupPath_append (q p : List String) (d : Dir) :
    lookupPath d (p ++ q) = (lookupPath d p).bind (fun t => lookupPath t q) := by
  induction p generalizing d with
  | nil => simp [lookupPath]
  | cons n rest ih =>
    simp only [List.cons_append, lookupPath]
    cases hg : getEntry d.entries n with
    | none => simp
    | some child => simp [ih child]

/-- A one-segment lookup is a child-map lookup. -/
theorem lookupPath_singleton (n : String) (d : Dir) :
    lookupPath d [n] = getEntry d.entries n := by
  cases hg : getEntry d.entries n <;> simp [lookupPath, hg]

/-- Looking up the path just replaced yields the replacement. -/
theorem lookupPath_updatePath_self {p : List String} {d t : Dir}
    (t' : Dir) (h : lookupPath d p = some t) :
    lookupPath (updatePath d p t') p = some t' := by
  induction p generalizing d with
  | nil => simp [lookupPath, updatePath]
  | cons n rest ih =>
    simp only [lookupPath] at h
    cases hg : getEntry d.entries n with
    | none => simp [hg] at h
    | some child =>
      rw [hg] at h
      simp only [updatePath, hg, lookupPath, getEntry_setEntry_self _ hg]
      exact ih h

/-- Replacing at a path twice keeps only the second replacement. -/
theorem updatePath_updatePath {p : List String} {d t : Dir} (a b : Dir)
    (h : lookupPath d p = some t) :
    updatePath (updatePath d p a) p b = updatePath d p b := by
  induction p generalizing d with
  | nil => simp [updatePath]
  | cons n rest ih =>
    simp only [lookupPath] at h
    cases hg : getEntry d.entries n with
    | none => simp [hg] at h
    | some child =>
      rw [hg] at h
      simp only [updatePath, hg, getEntry_setEntry_self _ hg, ih h, setEntry_setEntry]

/-- Replacing a node by what is already there changes nothing. -/
theorem updatePath_self {p : List String} {d t : Dir}
    (h : lookupPath d p = some t) : updatePath d p t = d := by
  induction p generalizing d with
  | nil => simp only [lookupPath, Option.some.injEq] at h; simp [updatePath, h]
  | cons n rest ih =>
    simp only [lookupPath] at h
    cases hg : getEntry d.entries n with
    | none => simp [hg] at h
    | some child =>
      rw [hg] at h
      simp only [updatePath, hg, ih h, setEntry_getEntry_self hg]
      exact Dir.eta d

/-! ## `exec_cmd` on each command, through `lookupPath`/`updatePath` -/

/-- Characterises `Create` on a path with last segment `n`: resolve the parent segments
`ps`; a failed resolution propagates `PathDoesNotExist` carrying the
parent path and leaves the tree unchanged; a name clash gives the
payload-less `FileAlreadyExists` and leaves the tree unchanged; otherwise
the new empty node, whose stored path is the full input path, is appended
to the parent's children. -/
theorem exec_create_spec (fs : FileSystem) (ps : List String) (n : String) :
    FileSystem.exec_cmd fs (.Create ⟨ps ++ [n]⟩) =
      match lookupPath fs.root ps with
      | none => some (.error (.PathDoesNotExist ⟨ps⟩), fs)
      | some t =>
        if (getEntry t.entries n).isSome then
          some (.error .FileAlreadyExists, fs)
        else
          some (.ok none,
            ⟨updatePath fs.root ps
              { t with entries := t.entries ++ [(n, Dir.new ⟨ps ++ [n]⟩)] }⟩) := by
  unfold FileSystem.exec_cmd
  dsimp only
  rw [List.getLast?_concat, List.dropLast_concat]
  dsimp only [accessDir]
  rw [accessAux_spec]
  cases hl : lookupPath fs.root ps with
  | none => rfl
  | some t =>
    dsimp only
    by_cases hocc : (getEntry t.entries n).isSome
    · simp [Dir.create_dir, hocc]
    · simp only [Dir.create_dir, hocc, if_false, Bool.false_eq_true, insertEntry]

/-- Characterises `Delete` on a path with last segment `n`: resolve the parent segments
`ps` (failure carries the parent path); a missing child gives
`PathDoesNotExist` carrying the parent node's *stored* path plus the name;
otherwise the child is removed. -/
theorem exec_delete_spec (fs : FileSystem) (ps : List String) (n : String) :
    FileSystem.exec_cmd fs (.Delete ⟨ps ++ [n]⟩) =
      match lookupPath fs.root ps with
      | none => some (.error (.PathDoesNotExist ⟨ps⟩), fs)
      | some t =>
        match getEntry t.entries n with
        | none => some (.error (.PathDoesNotExist (t.path.push_file n)), fs)
        | some _ =>
          some (.ok none,
            ⟨updatePath fs.root ps { t with entries := removeEntry t.entries n }⟩) := by
  unfold FileSystem.exec_cmd
  dsimp only
  rw [List.getLast?_concat, List.dropLast_concat]
  dsimp only [accessDir]
  rw [accessAux_spec]
  cases hl : lookupPath fs.root ps with
  | none => rfl
  | some t =>
    dsimp only
    cases hg : getEntry t.entries n with
    | none => simp [Dir.delete, hg]
    | some c => simp [Dir.delete, hg]

/-- Characterises `Move` with source last segment `n`: the source is detached *first*
(resolution failures of the source parent or the source itself leave the
tree unchanged); only then is `dest` resolved on the already-detached
tree.  A `dest` failure or a name clash at `dest` returns the error but
keeps the detached tree; on success the detached subtree is appended,
unchanged, to `dest`'s children. -/
theorem exec_move_spec (fs : FileSystem) (ps : List String) (n : String) (dest : Path) :
    FileSystem.exec_cmd fs (.Move ⟨ps ++ [n]⟩ dest) =
      match lookupPath fs.root ps with
      | none => some (.error (.PathDoesNotExist ⟨ps⟩), fs)
      | some t =>
        match getEntry t.entries n with
        | none => some (.error (.PathDoesNotExist (t.path.push_file n)), fs)
        | some moved =>
          let root1 := updatePath fs.root ps { t with entries := removeEntry t.entries n }
          match lookupPath root1 dest.file_names with
          | none => some (.error (.PathDoesNotExist dest), ⟨root1⟩)
          | some u =>
            if (getEntry u.entries n).isSome then
              some (.error .FileAlreadyExists, ⟨root1⟩)
            else
              some (.ok none,
                ⟨updatePath root1 dest.file_names
                  { u with entries := u.entries ++ [(n, moved)] }⟩) := by
  unfold FileSystem.exec_cmd
  dsimp only
  rw [List.getLast?_concat, List.dropLast_concat]
  dsimp only [accessDir]
  rw [accessAux_spec]
  cases hl : lookupPath fs.root ps with
  | none => rfl
  | some t =>
    dsimp only
    cases hg : getEntry t.entries n with
    | none => simp [Dir.delete, hg]
    | some moved =>
      simp only [Dir.delete, hg]
      rw [accessAux_spec]
      cases hd : lookupPath (updatePath fs.root ps
          { t with entries := removeEntry t.entries n }) dest.file_names with
      | none => rfl
      | some u =>
        dsimp only
        by_cases hocc : (getEntry u.entries n).isSome
        · simp [Dir.create_dir, hocc]
        · simp only [Dir.create_dir, hocc, if_false, Bool.false_eq_true, insertEntry]

/-! ## Splitting and joining on the separator -/

/-- Joining a list of segments with a separator: the specification-side
meaning of both the renderer's loop and the List output's newline
joining. -/
def intercalateChars (sep : List Char) : List (List Char) → List Char
  | [] => []
  | [l] => l
  | l :: l2 :: rest => l ++ sep ++ intercalateChars sep (l2 :: rest)

/-- Appending a terminator after every piece and popping the final
character is exactly joining with that single-character separator. -/
theorem flatten_terminator_dropLast (c : Char) (ls : List (List Char)) :
    ((ls.map (· ++ [c])).flatten).dropLast = intercalateChars [c] ls := by
  induction ls with
  | nil => rfl
  | cons l rest ih =>
    cases rest with
    | nil => simp [intercalateChars]
    | cons l2 rest2 =>
      have hne : ((l2 ++ [c]) :: rest2.map (· ++ [c])).flatten ≠ [] := by
        simp
      calc (((l :: l2 :: rest2).map (· ++ [c])).flatten).dropLast
          = (l ++ [c] ++ ((l2 ++ [c]) :: rest2.map (· ++ [c])).flatten).dropLast := by
            simp
        _ = l ++ [c] ++ (((l2 ++ [c]) :: rest2.map (· ++ [c])).flatten).dropLast := by
            rw [List.dropLast_append_of_ne_nil _ hne]
        _ = l ++ [c] ++ intercalateChars [c] (l2 :: rest2) := by
            have h2 := ih
            simp only [List.map_cons, List.flatten_cons] at h2
            rw [List.flatten_cons, h2]
        _ = intercalateChars [c] (l :: l2 :: rest2) := by
            simp [intercalateChars]

/-- Computation rule: the empty input gives one empty segment. -/
theorem splitSlash_nil : splitSlash [] = [[]] := rfl

/-- Computation rule: a leading separator opens an empty segment. -/
theorem splitSlash_cons_slash (rest : List Char) :
    splitSlash ('/' :: rest) = [] :: splitSlash rest := by
  simp [splitSlash]

/-- Lemma: `splitSlash` never returns the empty list of segments. -/
theorem splitSlash_ne_nil (cs : List Char) : splitSlash cs ≠ [] := by
  induction cs with
  | nil => simp [splitSlash]
  | cons c rest ih =>
    by_cases hc : c = '/'
    · subst hc
      rw [splitSlash_cons_slash]
      simp
    · simp only [splitSlash, if_neg hc]
      obtain ⟨h', t', hht⟩ := List.exists_cons_of_ne_nil ih
      rw [hht]
      simp

/-- Computation rule: a non-separator character joins the first
segment. -/
theorem splitSlash_cons_ne {c : Char} (rest : List Char) (hc : ¬ c = '/')
    {h' : List Char} {t' : List (List Char)} (hht : splitSlash rest = h' :: t') :
    splitSlash (c :: rest) = (c :: h') :: t' := by
  simp only [splitSlash, if_neg hc, hht]

/-- Splitting on the separator and joining with it gives back the
input. -/
theorem intercalateChars_splitSlash (cs : List Char) :
    intercalateChars ['/'] (splitSlash cs) = cs := by
  induction cs with
  | nil => rfl
  | cons c rest ih =>
    obtain ⟨h, t, hht⟩ := List.exists_cons_of_ne_nil (splitSlash_ne_nil rest)
    rw [hht] at ih
    by_cases hc : c = '/'
    · subst hc
      rw [splitSlash_cons_slash, hht]
      simp [intercalateChars, ih]
    · rw [splitSlash_cons_ne rest hc hht]
      cases t with
      | nil =>
        simp only [intercalateChars] at ih ⊢
        rw [ih]
      | cons t1 t2 =>
        simp only [intercalateChars, List.cons_append] at ih ⊢
        rw [List.append_assoc] at ih ⊢
        rw [ih]

/-- The first segment produced by the splitter is empty exactly for the
empty input or an input that starts with the separator. -/
theorem splitSlash_head_empty {cs : List Char} {h : List Char} {tl : List (List Char)}
    (hs : splitSlash cs = h :: tl) :
    h = [] ↔ (cs = [] ∨ cs.head? = some '/') := by
  cases cs with
  | nil =>
    rw [splitSlash_nil] at hs
    injection hs with h1 h2
    subst h1
    simp
  | cons c rest =>
    by_cases hc : c = '/'
    · subst hc
      rw [splitSlash_cons_slash] at hs
      injection hs with h1 h2
      subst h1
      simp
    · obtain ⟨h', t', hht⟩ := List.exists_cons_of_ne_nil (splitSlash_ne_nil rest)
      rw [splitSlash_cons_ne rest hc hht] at hs
      injection hs with h1 h2
      subst h1
      simp [hc]

/-- An empty segment appears after the first one exactly for a trailing
separator or two consecutive separators. -/
theorem splitSlash_tail_empty (cs : List Char) {h : List Char} {tl : List (List Char)}
    (hs : splitSlash cs = h :: tl) :
    [] ∈ tl ↔ (cs.getLast? = some '/' ∨ hasDoubleSlash cs = true) := by
  induction cs generalizing h tl with
  | nil =>
    rw [splitSlash_nil] at hs
    injection hs with h1 h2
    subst h2
    simp [hasDoubleSlash]
  | cons c rest ih =>
    by_cases hc : c = '/'
    · subst hc
      rw [splitSlash_cons_slash] at hs
      injection hs with h1 h2
      subst h2
      obtain ⟨h', t', hht⟩ := List.exists_cons_of_ne_nil (splitSlash_ne_nil rest)
      rw [hht]
      have hhead := splitSlash_head_empty hht
      have htail := ih hht
      cases rest with
      | nil =>
        rw [splitSlash_nil] at hht
        injection hht with hh1 hh2
        subst hh1
        simp [hasDoubleSlash]
      | cons c2 rest2 =>
        simp only [List.mem_cons, eq_comm (a := ([] : List Char)), hhead, htail]
        simp only [List.getLast?_cons_cons, List.head?_cons, Option.some.injEq,
          hasDoubleSlash, Bool.or_eq_true, Bool.and_eq_true, decide_eq_true_eq]
        constructor
        · rintro ((h1 | h1) | (h2 | h2))
          · exact absurd h1 (by simp)
          · right
            left
            exact ⟨trivial, h1⟩
          · left
            exact h2
          · right
            right
            exact h2
        · rintro (h1 | (⟨_, h2⟩ | h2))
          · right
            left
            exact h1
          · left
            right
            exact h2
          · right
            right
            exact h2
    · obtain ⟨h', t', hht⟩ := List.exists_cons_of_ne_nil (splitSlash_ne_nil rest)
      rw [splitSlash_cons_ne rest hc hht] at hs
      injection hs with h1 h2
      subst h2
      have htail := ih hht
      cases rest with
      | nil =>
        rw [splitSlash_nil] at hht
        injection hht with hh1 hh2
        subst hh2
        simp [hc, hasDoubleSlash]
      | cons c2 rest2 =>
        rw [htail]
        simp only [List.getLast?_cons_cons, hasDoubleSlash, Bool.or_eq_true,
          Bool.and_eq_true, decide_eq_true_eq]
        constructor
        · rintro (h1 | h2)
          · left
            exact h1
          · right
            right
            exact h2
        · rintro (h1 | (⟨h2, _⟩ | h2))
          · left
            exact h1
          · exact absurd h2 hc
          · right
            exact h2

/-- The four-way characterisation of when splitting produces an empty
segment: empty input, leading separator, trailing separator, or two
consecutive separators. -/
theorem mem_nil_splitSlash_iff (cs : List Char) :
    [] ∈ splitSlash cs ↔
      (cs = [] ∨ cs.head? = some '/' ∨ cs.getLast? = some '/' ∨
        hasDoubleSlash cs = true) := by
  obtain ⟨h, tl, hht⟩ := List.exists_cons_of_ne_nil (splitSlash_ne_nil cs)
  rw [hht]
  simp only [List.mem_cons]
  rw [eq_comm (a := ([] : List Char)), splitSlash_head_empty hht,
    splitSlash_tail_empty cs hht]
  tauto

/-! ## Parser and renderer properties -/

theorem data_eq_nil_iff (s : String) : s.data = [] ↔ s = "" := by
  constructor
  · intro h
    apply String.ext
    simpa using h
  · intro h
    subst h
    rfl

theorem length_eq_zero_iff (s : String) : s.length = 0 ↔ s = "" := by
  constructor
  · intro h
    apply String.ext
    have := List.length_eq_zero.mp h
    simpa using this
  · intro h
    subst h
    rfl

/-- The empty string is a produced segment iff the splitter produced an
empty character list. -/
theorem mem_empty_rsplit_iff (s : String) :
    "" ∈ rsplit s ↔ [] ∈ splitSlash s.data := by
  simp only [rsplit, List.mem_map]
  constructor
  · rintro ⟨l, hl, hmk⟩
    have : l = [] := by
      have := congrArg String.data hmk
      simpa using this
    exact this ▸ hl
  · intro h
    exact ⟨[], h, rfl⟩

/-- The empty-segment test the parser's loop performs is membership of the
empty string. -/
theorem any_length_zero_iff (l : List String) :
    (l.any fun t => t.length = 0) = true ↔ "" ∈ l := by
  simp only [List.any_eq_true, decide_eq_true_eq]
  constructor
  · rintro ⟨t, ht, hlen⟩
    exact (length_eq_zero_iff t).mp hlen ▸ ht
  · intro h
    exact ⟨"", h, rfl⟩

/-- The parser fails (with `BadPath` carrying the input) exactly when an
empty segment was produced. -/
theorem tryFrom_badPath_iff (s : String) (hs : s ≠ "/") :
    Path.tryFrom s = .error (.BadPath s) ↔ "" ∈ rsplit s := by
  by_cases hAny : (rsplit s).any (fun t => t.length = 0) = true
  · simp [Path.tryFrom, if_neg hs, hAny, (any_length_zero_iff (rsplit s)).mp hAny]
  · have hmem : "" ∉ rsplit s := fun hmem => hAny ((any_length_zero_iff _).mpr hmem)
    simp [Path.tryFrom, if_neg hs, hAny, hmem]

/-- When no empty segment is produced, the parser returns the segments in
order. -/
theorem tryFrom_ok_of_not_mem (s : String) (hs : s ≠ "/") (h : "" ∉ rsplit s) :
    Path.tryFrom s = .ok ⟨rsplit s⟩ := by
  have hAny : ¬ (rsplit s).any (fun t => t.length = 0) = true :=
    fun hAny => h ((any_length_zero_iff _).mp hAny)
  simp [Path.tryFrom, if_neg hs, hAny]

/-- The renderer undoes the splitter on every input string. -/
theorem render_rsplit (s : String) : Path.render ⟨rsplit s⟩ = s := by
  apply String.ext
  show ((((rsplit s).map fun t => t.data ++ ['/']).flatten).dropLast) = s.data
  have hmap : ((rsplit s).map fun t => t.data ++ ['/'])
      = (splitSlash s.data).map (· ++ ['/']) := by
    simp [rsplit, List.map_map, Function.comp]
  rw [hmap, flatten_terminator_dropLast, intercalateChars_splitSlash]

/-- C4: the Path component's parser maps the single-separator string `"/"`
to the empty-segment (root) Path; every other input is split on the
separator and fails with `BadPath` carrying the original text iff some
resulting segment is empty — which happens exactly for empty input, a
non-root leading separator, a trailing separator, or consecutive
separators — and otherwise the segments in left-to-right order become the
Path. -/
theorem C4_path_parse :
    (Path.tryFrom "/" = .ok ⟨[]⟩) ∧
    (∀ s : String, s ≠ "/" →
      (Path.tryFrom s = .error (.BadPath s) ↔ "" ∈ rsplit s) ∧
      ("" ∈ rsplit s ↔
        (s = "" ∨ s.data.head? = some '/' ∨ s.data.getLast? = some '/' ∨
          hasDoubleSlash s.data = true)) ∧
      ("" ∉ rsplit s → Path.tryFrom s = .ok ⟨rsplit s⟩)) := by
  refine ⟨rfl, fun s hs => ⟨tryFrom_badPath_iff s hs, ?_, tryFrom_ok_of_not_mem s hs⟩⟩
  rw [mem_empty_rsplit_iff, mem_nil_splitSlash_iff, data_eq_nil_iff]

/-- Witness for C4 at concrete inputs: a well-formed two-segment path
parses to its segments, and a doubled separator is rejected with the
offending text. -/
theorem C4_path_parse_witness :
    Path.tryFrom "a/b" = .ok ⟨["a", "b"]⟩ ∧
    Path.tryFrom "x//y" = .error (.BadPath "x//y") := by
  constructor
  · have h := (C4_path_parse.2 "a/b" (by decide)).2.2 (by decide)
    exact h
  · have h := ((C4_path_parse.2 "x//y" (by decide)).1).mpr (by decide)
    exact h

/-- C9 counterexample: the empty string is not the root literal and
contains no leading, trailing, or doubled separator, yet it does not parse
at all (`BadPath`), so `Render(Parse(""))` cannot yield `""` — the claim's
conditions must additionally exclude the empty input. -/
theorem C9_empty_string_counterexample :
    ("" : String) ≠ "/" ∧ ("" : String).data.head? ≠ some '/' ∧
    ("" : String).data.getLast? ≠ some '/' ∧
    hasDoubleSlash ("" : String).data = false ∧
    Path.tryFrom "" = .error (.BadPath "") := by
  exact ⟨by decide, by decide, by decide, rfl, rfl⟩

/-- C9 (amended): for every *non-empty* string that is not the root
literal and has no leading, trailing, or doubled separator, parsing
succeeds with the split segments and rendering them yields the original
string; the empty Path renders to the empty string. -/
theorem C9_roundtrip_amended (s : String) (h0 : s ≠ "") (h1 : s ≠ "/")
    (h2 : s.data.head? ≠ some '/') (h3 : s.data.getLast? ≠ some '/')
    (h4 : hasDoubleSlash s.data = false) :
    Path.tryFrom s = .ok ⟨rsplit s⟩ ∧ Path.render ⟨rsplit s⟩ = s ∧
    Path.render ⟨[]⟩ = "" := by
  have hnm : [] ∉ splitSlash s.data := by
    rw [mem_nil_splitSlash_iff]
    rintro (h | h | h | h)
    · exact h0 ((data_eq_nil_iff s).mp h)
    · exact h2 h
    · exact h3 h
    · rw [h4] at h
      cases h
  have hne : "" ∉ rsplit s := fun hmem => hnm ((mem_empty_rsplit_iff s).mp hmem)
  exact ⟨tryFrom_ok_of_not_mem s h1 hne, render_rsplit s, rfl⟩

/-- Witness for C9 at a concrete input: `"ab/c"` parses and renders back
to itself. -/
theorem C9_roundtrip_witness :
    Path.tryFrom "ab/c" = .ok ⟨["ab", "c"]⟩ ∧ Path.render ⟨["ab", "c"]⟩ = "ab/c" := by
  have h := C9_roundtrip_amended "ab/c" (by decide) (by decide) (by decide) (by decide) rfl
  exact ⟨h.1, h.2.1⟩

/-! ## Concrete trees used by witnesses and counterexamples -/

/-- An empty directory stored at path `a`. -/
def dirA : Dir := ⟨⟨["a"]⟩, []⟩

/-- An empty directory stored at path `b`. -/
def dirB : Dir := ⟨⟨["b"]⟩, []⟩

/-- The tree after `Create("a")` on an empty tree. -/
def fsA : FileSystem := ⟨⟨⟨[]⟩, [("a", dirA)]⟩⟩

/-- The tree after `Create("a")`, `Create("b")` on an empty tree. -/
def fsAB : FileSystem := ⟨⟨⟨[]⟩, [("a", dirA), ("b", dirB)]⟩⟩

/-- The tree after `Create("b")` on an empty tree. -/
def fsB : FileSystem := ⟨⟨⟨[]⟩, [("b", dirB)]⟩⟩

/-- The tree after `Create("b")`, `Create("a")` on an empty tree. -/
def fsBA : FileSystem := ⟨⟨⟨[]⟩, [("b", dirB), ("a", dirA)]⟩⟩

/-- The node `a` after `b` was moved under it: its child `b` still stores
the stale canonical path `b`. -/
def dirA1 : Dir := ⟨⟨["a"]⟩, [("b", dirB)]⟩

/-- The tree after `Create("a")`, `Create("b")`, `Move{src:"b", dest:"a"}`. -/
def fsMoved : FileSystem := ⟨⟨⟨[]⟩, [("a", dirA1)]⟩⟩

/-- A directory stored at path `a/b`. -/
def dirAB : Dir := ⟨⟨["a", "b"]⟩, []⟩

/-- The node `a` already containing a child `b` (stored path `a/b`). -/
def dirAfull : Dir := ⟨⟨["a"]⟩, [("b", dirAB)]⟩

/-- A tree with `a` (containing `a/b`) and a top-level `b`. -/
def fsClash : FileSystem := ⟨⟨⟨[]⟩, [("a", dirAfull), ("b", dirB)]⟩⟩

/-- State of `fsClash` after the top-level `b` was detached (and lost). -/
def fsClashAfter : FileSystem := ⟨⟨⟨[]⟩, [("a", dirAfull)]⟩⟩

/-! ## C6: Create on an existing name -/

/-- C6 counterexample: after `Create("a")`, a second `Create("a")` fails
with `FileAlreadyExists` and the tree is unchanged — but the engine's
`FileAlreadyExists` constructor carries *no* path at all, so the error
cannot carry the conflicting entry's path as the claim states. -/
theorem C6_counterexample :
    FileSystem.exec_cmd FileSystem.new (.Create ⟨["a"]⟩) = some (.ok none, fsA) ∧
    FileSystem.exec_cmd fsA (.Create ⟨["a"]⟩) = some (.error .FileAlreadyExists, fsA) ∧
    FileSystemError.carriedPath .FileAlreadyExists = none :=
  ⟨rfl, rfl, rfl⟩

/-- C6 (amended): when the parent of the path resolves and already has a
child with the new name, `Create` fails with the payload-less
`FileAlreadyExists` (which carries no path) and the tree is unchanged. -/
theorem C6_create_conflict_no_payload (fs : FileSystem) (ps : List String) (n : String)
    (t : Dir) (h1 : lookupPath fs.root ps = some t)
    (h2 : (getEntry t.entries n).isSome) :
    FileSystem.exec_cmd fs (.Create ⟨ps ++ [n]⟩) = some (.error .FileAlreadyExists, fs) ∧
    FileSystemError.carriedPath .FileAlreadyExists = none := by
  refine ⟨?_, rfl⟩
  rw [exec_create_spec, h1]
  simp [h2]

/-- Witness for the amended C6 at the concrete scenario of the claim. -/
theorem C6_create_conflict_witness :
    FileSystem.exec_cmd fsA (.Create ⟨["a"]⟩) = some (.error .FileAlreadyExists, fsA) ∧
    FileSystemError.carriedPath .FileAlreadyExists = none :=
  C6_create_conflict_no_payload fsA [] "a" fsA.root rfl rfl

/-! ## C1: Move with an unresolvable destination -/

/-- C1 counterexample: on a tree containing only `a`,
`Move{src:"a", dest:"b"}` does fail with `PathDoesNotExist` carrying
`b` — but the tree is *not* left unchanged: the subtree at `a` was already
detached (the resulting tree is empty), because the engine detaches the
source before ever resolving `dest`. -/
theorem C1_counterexample :
    FileSystem.exec_cmd fsA (.Move ⟨["a"]⟩ ⟨["b"]⟩)
      = some (.error (.PathDoesNotExist ⟨["b"]⟩), FileSystem.new) ∧
    fsA.root.entries.length = 1 ∧ FileSystem.new.root.entries.length = 0 :=
  ⟨rfl, rfl, rfl⟩

/-- C1 (amended): the engine resolves `dest` only *after* detaching the
source subtree.  If `dest` does not resolve, the command fails with
`PathDoesNotExist` carrying `dest`, but the tree is left with the source
subtree removed (and the detached subtree discarded), not unchanged. -/
theorem C1_move_unresolved_dest_after_detach (fs : FileSystem) (ps : List String)
    (n : String) (t moved : Dir) (dest : Path)
    (h1 : lookupPath fs.root ps = some t)
    (h2 : getEntry t.entries n = some moved)
    (h3 : lookupPath (updatePath fs.root ps { t with entries := removeEntry t.entries n })
        dest.file_names = none) :
    FileSystem.exec_cmd fs (.Move ⟨ps ++ [n]⟩ dest)
      = some (.error (.PathDoesNotExist dest),
          ⟨updatePath fs.root ps { t with entries := removeEntry t.entries n }⟩) := by
  rw [exec_move_spec, h1]
  dsimp only
  rw [h2]
  dsimp only
  rw [h3]

/-- Witness for the amended C1 at the counterexample's concrete input. -/
theorem C1_move_unresolved_dest_witness :
    FileSystem.exec_cmd fsA (.Move ⟨["a"]⟩ ⟨["b"]⟩)
      = some (.error (.PathDoesNotExist ⟨["b"]⟩), FileSystem.new) :=
  C1_move_unresolved_dest_after_detach fsA [] "a" fsA.root dirA ⟨["b"]⟩ rfl rfl rfl

/-! ## C5: Move whose reattach collides -/

theorem getEntry_eq_none_of_not_mem {m : List (String × Dir)} {k : String}
    (h : k ∉ m.map Prod.fst) : getEntry m k = none := by
  induction m with
  | nil => rfl
  | cons e rest ih =>
    obtain ⟨n, d⟩ := e
    simp only [List.map_cons, List.mem_cons] at h
    push_neg at h
    simp only [getEntry, if_neg (Ne.symm h.1)]
    exact ih h.2

/-- With unique keys (as `HashMap` guarantees), removing a key removes its
only entry. -/
theorem getEntry_removeEntry_self {m : List (String × Dir)} {k : String}
    (hnd : (m.map Prod.fst).Nodup) : getEntry (removeEntry m k) k = none := by
  induction m with
  | nil => rfl
  | cons e rest ih =>
    obtain ⟨n, d⟩ := e
    simp only [List.map_cons, List.nodup_cons] at hnd
    by_cases hk : n = k
    · subst hk
      simp only [removeEntry, if_pos rfl]
      exact getEntry_eq_none_of_not_mem hnd.1
    · simp only [removeEntry, if_neg hk, getEntry, if_neg hk]
      exact ih hnd.2

/-- C5: when the detach of the source succeeds but a child with the
source's base name already exists at `dest`, `Move` returns the
payload-less `FileAlreadyExists`, and the resulting tree is exactly the
original tree with the source subtree detached — the subtree is reattached
nowhere, so it is silently lost; in particular the source path no longer
resolves.  (The `Nodup` hypothesis is the key-uniqueness `HashMap`
guarantees.) -/
theorem C5_move_clash_loses_subtree (fs : FileSystem) (ps : List String) (n : String)
    (t moved : Dir) (dest : Path) (u : Dir)
    (hnd : (t.entries.map Prod.fst).Nodup)
    (h1 : lookupPath fs.root ps = some t)
    (h2 : getEntry t.entries n = some moved)
    (h3 : lookupPath (updatePath fs.root ps { t with entries := removeEntry t.entries n })
        dest.file_names = some u)
    (h4 : (getEntry u.entries n).isSome) :
    FileSystem.exec_cmd fs (.Move ⟨ps ++ [n]⟩ dest)
      = some (.error .FileAlreadyExists,
          ⟨updatePath fs.root ps { t with entries := removeEntry t.entries n }⟩) ∧
    lookupPath (updatePath fs.root ps { t with entries := removeEntry t.entries n })
      (ps ++ [n]) = none := by
  constructor
  · rw [exec_move_spec, h1]
    dsimp only
    rw [h2]
    dsimp only
    rw [h3]
    simp [h4]
  · rw [lookupPath_append, lookupPath_updatePath_self _ h1]
    simp only [Option.bind_some, lookupPath_singleton]
    exact getEntry_removeEntry_self hnd

/-- Witness for C5: with `a` containing `a/b` and a top-level `b`,
`Move{src:"b", dest:"a"}` returns `FileAlreadyExists`, the top-level `b`
is gone, and it was reattached nowhere. -/
theorem C5_move_clash_witness :
    FileSystem.exec_cmd fsClash (.Move ⟨["b"]⟩ ⟨["a"]⟩)
      = some (.error .FileAlreadyExists, fsClashAfter) ∧
    lookupPath fsClashAfter.root ["b"] = none := by
  have h := C5_move_clash_loses_subtree fsClash [] "b" fsClash.root dirB ⟨["a"]⟩ dirAfull
    (by decide) rfl rfl rfl rfl
  exact h

/-! ## C3: Move does not rewrite stored canonical paths -/

/-- C3 counterexample: after `Create("a")`, `Create("b")`,
`Move{src:"b", dest:"a"}` succeeds, but the node now reached at `a/b`
still stores the stale canonical path `b`, which differs from its parent's
stored path `a` plus the key `b` — the invariant the claim asserts is
violated. -/
theorem C3_counterexample :
    FileSystem.exec_cmd fsAB (.Move ⟨["b"]⟩ ⟨["a"]⟩) = some (.ok none, fsMoved) ∧
    lookupPath fsMoved.root ["a"] = some dirA1 ∧
    getEntry dirA1.entries "b" = some dirB ∧
    dirB.path ≠ dirA1.path.push_file "b" :=
  ⟨rfl, rfl, rfl, by decide⟩

/-- C3 (amended): after every fully successful `Move`, the subtree found
at the destination plus the source's base name is the *identical* `Dir`
value that was at the source before the command — no stored canonical
path inside it is rewritten; the stored-path invariant therefore need not
hold after a `Move`. -/
theorem C3_move_no_path_rewrite (fs : FileSystem) (ps : List String) (n : String)
    (t moved : Dir) (dest : Path) (u : Dir)
    (h1 : lookupPath fs.root ps = some t)
    (h2 : getEntry t.entries n = some moved)
    (h3 : lookupPath (updatePath fs.root ps { t with entries := removeEntry t.entries n })
        dest.file_names = some u)
    (h4 : getEntry u.entries n = none) :
    FileSystem.exec_cmd fs (.Move ⟨ps ++ [n]⟩ dest)
      = some (.ok none,
          ⟨updatePath (updatePath fs.root ps { t with entries := removeEntry t.entries n })
            dest.file_names { u with entries := u.entries ++ [(n, moved)] }⟩) ∧
    lookupPath fs.root (ps ++ [n]) = some moved ∧
    lookupPath
      (updatePath (updatePath fs.root ps { t with entries := removeEntry t.entries n })
        dest.file_names { u with entries := u.entries ++ [(n, moved)] })
      (dest.file_names ++ [n]) = some moved := by
  refine ⟨?_, ?_, ?_⟩
  · rw [exec_move_spec, h1]
    dsimp only
    rw [h2]
    dsimp only
    rw [h3]
    simp [h4]
  · rw [lookupPath_append, h1]
    simp only [Option.bind_some, lookupPath_singleton]
    exact h2
  · rw [lookupPath_append, lookupPath_updatePath_self _ h3]
    simp only [Option.bind_some, lookupPath_singleton]
    exact getEntry_append_right _ h4

/-- Witness for the amended C3 at the counterexample's concrete input:
the node reattached at `a/b` is the very node that was at `b`, stale
stored path included. -/
theorem C3_move_no_path_rewrite_witness :
    FileSystem.exec_cmd fsAB (.Move ⟨["b"]⟩ ⟨["a"]⟩) = some (.ok none, fsMoved) ∧
    lookupPath fsAB.root ["b"] = some dirB ∧
    lookupPath fsMoved.root ["a", "b"] = some dirB := by
  have h := C3_move_no_path_rewrite fsAB [] "b" fsAB.root dirB ⟨["a"]⟩ dirA rfl rfl rfl rfl
  exact h

/-! ## C8: Create then Delete is the identity -/

/-- C8: whenever `Create(p)` succeeds, immediately following it with
`Delete(p)` restores the tree to exactly its previous value (structural
identity, stored paths included). -/
theorem C8_create_then_delete (fs fs1 : FileSystem) (p : Path)
    (h : FileSystem.exec_cmd fs (.Create p) = some (.ok none, fs1)) :
    FileSystem.exec_cmd fs1 (.Delete p) = some (.ok none, fs) := by
  obtain ⟨l⟩ := p
  rcases List.eq_nil_or_concat l with rfl | ⟨ps, n, hl0⟩
  · simp [FileSystem.exec_cmd] at h
  · rw [show l = ps ++ [n] by simpa using hl0] at h ⊢
    rw [exec_create_spec] at h
    cases hl : lookupPath fs.root ps with
    | none =>
      rw [hl] at h
      simp at h
    | some t =>
      rw [hl] at h
      dsimp only at h
      by_cases hocc : (getEntry t.entries n).isSome
      · rw [if_pos hocc] at h
        simp at h
      · rw [if_neg hocc] at h
        have hocc' : getEntry t.entries n = none := Option.not_isSome_iff_eq_none.mp hocc
        simp only [Option.some.injEq, Prod.mk.injEq, true_and] at h
        subst h
        rw [exec_delete_spec]
        rw [lookupPath_updatePath_self _ hl]
        dsimp only
        rw [getEntry_append_right _ hocc']
        dsimp only
        rw [removeEntry_append_right _ hocc']
        rw [Dir.eta]
        rw [updatePath_updatePath _ _ hl, updatePath_self hl]

/-- Witness for C8: `Create("a")` then `Delete("a")` on the empty tree
restores the empty tree. -/
theorem C8_create_then_delete_witness :
    FileSystem.exec_cmd FileSystem.new (.Create ⟨["a"]⟩) = some (.ok none, fsA) ∧
    FileSystem.exec_cmd fsA (.Delete ⟨["a"]⟩) = some (.ok none, FileSystem.new) :=
  ⟨rfl, C8_create_then_delete FileSystem.new fsA ⟨["a"]⟩ rfl⟩

/-! ## C10: the root path panics -/

/-- The precondition under which `exec_cmd` does not reach a
`pop().unwrap()` on an empty segment list: the path of `Create`/`Delete`
and the `src` of `Move` have at least one segment. -/
def cmdSrcNonRoot : Cmd → Prop
  | .Move src _ => src.file_names ≠ []
  | .Create p => p.file_names ≠ []
  | .Delete p => p.file_names ≠ []
  | .List => True

/-- C10: `Create`, `Delete`, and `Move` on the empty (root) path hit
`pop().unwrap()` on an empty list and panic (modelled as `none`) instead
of returning a typed error, for every tree state; with non-empty paths
(and `List` always), `exec_cmd` returns a value. -/
theorem C10_root_path_panics (fs : FileSystem) (dest : Path) :
    FileSystem.exec_cmd fs (.Create ⟨[]⟩) = none ∧
    FileSystem.exec_cmd fs (.Delete ⟨[]⟩) = none ∧
    FileSystem.exec_cmd fs (.Move ⟨[]⟩ dest) = none ∧
    (∀ cmd : Cmd, cmdSrcNonRoot cmd → (FileSystem.exec_cmd fs cmd).isSome) := by
  refine ⟨rfl, rfl, rfl, ?_⟩
  intro cmd hcmd
  cases cmd with
  | List => rfl
  | Create p =>
    obtain ⟨l⟩ := p
    obtain ⟨a, ha⟩ : ∃ a, l.getLast? = some a := by
      cases hx : l.getLast? with
      | none => exact absurd (List.getLast?_eq_none_iff.mp hx) hcmd
      | some a => exact ⟨a, rfl⟩
    simp only [FileSystem.exec_cmd, ha]
    split <;> rfl
  | Delete p =>
    obtain ⟨l⟩ := p
    obtain ⟨a, ha⟩ : ∃ a, l.getLast? = some a := by
      cases hx : l.getLast? with
      | none => exact absurd (List.getLast?_eq_none_iff.mp hx) hcmd
      | some a => exact ⟨a, rfl⟩
    simp only [FileSystem.exec_cmd, ha]
    split <;> rfl
  | Move src dest2 =>
    obtain ⟨l⟩ := src
    obtain ⟨a, ha⟩ : ∃ a, l.getLast? = some a := by
      cases hx : l.getLast? with
      | none => exact absurd (List.getLast?_eq_none_iff.mp hx) hcmd
      | some a => exact ⟨a, rfl⟩
    simp only [FileSystem.exec_cmd, ha]
    split
    · rfl
    · split <;> rfl

/-- Witness for C10: on a concrete tree, `Create` of the root path
panics, while `Delete` of an existing name returns a value. -/
theorem C10_root_path_panics_witness :
    FileSystem.exec_cmd fsA (.Create ⟨[]⟩) = none ∧
    (FileSystem.exec_cmd fsA (.Delete ⟨["a"]⟩)).isSome := by
  have h := C10_root_path_panics fsA ⟨[]⟩
  exact ⟨h.1, h.2.2.2 (.Delete ⟨["a"]⟩) (by simp [cmdSrcNonRoot])⟩

/-! ## C7 and C2: the List output -/

/-- The accumulated traversal output is the concatenation of the visit's
lines, each terminated by a newline. -/
theorem traverseEntries_eq_lines (es : List (String × Dir)) (depth : Nat) :
    traverseEntries es depth = ((listLines es depth).map (· ++ ['\n'])).flatten := by
  induction es, depth using traverseEntries.induct with
  | case1 depth => simp [traverseEntries, listLines]
  | case2 name child rest depth ih1 ih2 =>
    simp [traverseEntries, listLines, ih1, ih2]

/-- The indentation pushed for a visit at `depth` is `2 × depth`
spaces. -/
theorem indentChars_eq (depth : Nat) : indentChars depth = List.replicate (2 * depth) ' ' := by
  induction depth with
  | zero => rfl
  | succ d ih =>
    have h2 : 2 * (d + 1) = 2 * d + 1 + 1 := by ring
    simp only [indentChars, List.replicate_succ, List.flatten_cons] at ih ⊢
    rw [ih, h2, List.replicate_succ, List.replicate_succ]
    rfl

/-- C7: `List` never fails; its output is the pre-order visit's lines —
each line the visit's indentation (`2 × depth` spaces, depth 0 for the
root's immediate children) followed by the child's name — joined by
newlines with no trailing newline, and on an empty tree the output is
exactly the empty string. -/
theorem C7_list_output (fs : FileSystem) :
    FileSystem.exec_cmd fs .List
      = some (.ok (some ⟨intercalateChars ['\n'] (listLines fs.root.entries 0)⟩), fs) ∧
    (fs.root.entries = [] → FileSystem.exec_cmd fs .List = some (.ok (some ""), fs)) ∧
    (∀ depth, indentChars depth = List.replicate (2 * depth) ' ') := by
  have hmain : FileSystem.exec_cmd fs .List
      = some (.ok (some ⟨intercalateChars ['\n'] (listLines fs.root.entries 0)⟩), fs) := by
    simp only [FileSystem.exec_cmd]
    rw [traverseEntries_eq_lines, flatten_terminator_dropLast]
  refine ⟨hmain, ?_, indentChars_eq⟩
  intro hempty
  rw [hempty] at hmain
  rw [hmain]
  simp [listLines, intercalateChars]

/-- Witness for C7: the empty tree lists to the empty string (not an
error), and the depth-2 indentation is four spaces. -/
theorem C7_list_output_witness :
    FileSystem.exec_cmd FileSystem.new .List = some (.ok (some ""), FileSystem.new) ∧
    indentChars 2 = List.replicate 4 ' ' := by
  have h := C7_list_output FileSystem.new
  exact ⟨h.2.1 rfl, h.2.2 2⟩

/-- C2 (failing input): after `Create("b")` then `Create("a")` on an empty
tree, the children's map — a `HashMap`, which guarantees no iteration
order; the model realises insertion order, one of its admissible orders —
is iterated with `b` first, so `List` outputs the line for `b` *before*
the line for `a`, not in ascending lexicographic order. -/
theorem C2_list_not_sorted :
    FileSystem.exec_cmd FileSystem.new (.Create ⟨["b"]⟩) = some (.ok none, fsB) ∧
    FileSystem.exec_cmd fsB (.Create ⟨["a"]⟩) = some (.ok none, fsBA) ∧
    FileSystem.exec_cmd fsBA .List = some (.ok (some "b\na"), fsBA) := by
  refine ⟨rfl, rfl, ?_⟩
  simp only [FileSystem.exec_cmd, fsBA, dirA, dirB]
  simp [traverseEntries, indentChars]

end EndpointFs
